import Mathlib

/-!
Shallow embedding of `sutton1981.py` (Sutton 1981, adaptation of learning
rate parameters): a hierarchical gain-adaptation agent and a simulated
random-walk environment.

Real numbers are modelled by `ℚ`. Python run-time failures are modelled by
`Option`: an `IndexError` (indexing an empty or exhausted list/array) and a
numpy `ValueError` (negative array size, negative normal scale) become
`none`. The pre-drawn `np.random.normal` arrays are modelled by arbitrary
draw functions `ℕ → ℚ` supplied at construction / redraw time, truncated to
the requested size, which keeps every downstream computation exact while
preserving the shapes and the order of all state updates of the source.
-/

/-- State of `Agent` in `sutton1981.py` (one field per Python attribute,
in declaration order). -/
structure Agent where
  gain : ℚ
  y_t : ℚ
  b : ℚ
  pe_t : ℚ
  pe_t_minus_1 : ℚ
  pe_product : ℚ
  gain_depth : ℤ
  gain_hierarchy_values : List ℚ
deriving DecidableEq

/-- Model of `Agent.__init__(initial_gain, b, gain_depth)`. In Python,
`[0] * (gain_depth + 1)` yields the empty list whenever
`gain_depth + 1 <= 0`, which `(gain_depth + 1).toNat` reproduces. -/
def Agent.init (initial_gain b : ℚ) (gain_depth : ℤ) : Agent :=
  { gain := initial_gain
    y_t := 0
    b := b
    pe_t := 0
    pe_t_minus_1 := 0
    pe_product := 0
    gain_depth := gain_depth
    gain_hierarchy_values := List.replicate (gain_depth + 1).toNat 0 }

/-- One iteration of the loop body in `Agent.compute_gain`:
`gain_hierarchy_values[idx] += gain_hierarchy_values[idx + 1] * pe_product`. -/
def gainUpdateAt (p : ℚ) (g : List ℚ) (i : ℕ) : List ℚ :=
  g.set i (g.getD i 0 + g.getD (i + 1) 0 * p)

/-- The loop `for idx in range(gain_depth - 1, -1, -1)` of
`Agent.compute_gain`: apply `gainUpdateAt` at indices `i, i-1, ..., 0`,
in that (descending) order. -/
def gainSweep (p : ℚ) : ℕ → List ℚ → List ℚ
  | 0, g => gainUpdateAt p g 0
  | i + 1, g => gainSweep p i (gainUpdateAt p g (i + 1))

/-- The gain-hierarchy list produced by one call of `Agent.compute_gain`:
`gain_hierarchy_values[-1] = b` (index `length - 1`), then the descending
loop, which runs over `range(gain_depth - 1, -1, -1)` and is empty unless
`gain_depth >= 1`. -/
def newHierarchy (a : Agent) : List ℚ :=
  let p := a.pe_t * a.pe_t_minus_1
  let g1 := a.gain_hierarchy_values.set (a.gain_hierarchy_values.length - 1) a.b
  if 1 ≤ a.gain_depth then gainSweep p (a.gain_depth - 1).toNat g1 else g1

/-- Model of `Agent.compute_gain`. The value `none` models the `IndexError` of
`self.gain_hierarchy_values[-1] = self.b` on an empty list (which happens
exactly when the agent was built with negative `gain_depth`); otherwise the
method sets `pe_product`, rewrites the hierarchy in place, and reads the
new `gain` from index 0 of the updated list. -/
def Agent.compute_gain (a : Agent) : Option Agent :=
  if a.gain_hierarchy_values = [] then none
  else
    some { a with
      pe_product := a.pe_t * a.pe_t_minus_1
      gain_hierarchy_values := newHierarchy a
      gain := (newHierarchy a).getD 0 0 }

/-- Model of `Agent.action(true_y_t)`: shift the error window, compute the new
prediction error, run `compute_gain` when `gain_depth != 0`, update `y_t`,
and return the new `y_t` together with the post-call state. -/
def Agent.action (a : Agent) (true_y_t : ℚ) : Option (ℚ × Agent) :=
  let a1 := { a with pe_t_minus_1 := a.pe_t, pe_t := true_y_t - a.y_t }
  let a2? := if a1.gain_depth ≠ 0 then a1.compute_gain else some a1
  a2?.map fun a2 =>
    let y := a2.y_t + a2.gain * a2.pe_t
    (y, { a2 with y_t := y })

/-- Feed a list of `true_y_t` inputs to the agent, collecting after each
`action` call the pair (returned `y_t`, effective gain `self.gain`). -/
def Agent.traj (a : Agent) : List ℚ → Option (List (ℚ × ℚ))
  | [] => some []
  | t :: ts =>
    (a.action t).bind fun p => (p.2.traj ts).map fun rest => (p.1, p.2.gain) :: rest

/-- Feed a list of inputs to the agent, returning the final state. -/
def Agent.run (a : Agent) : List ℚ → Option Agent
  | [] => some a
  | t :: ts => (a.action t).bind fun p => p.2.run ts

/-- Modelled from the spec: state of the direct single-level rule
`gain += b * pe_t * pe_t_minus_1; y_t += gain * pe_t` of the depth-1
equivalence property, started from effective gain 0 and `y_t = 0`. -/
structure SimpleState where
  gain : ℚ
  y : ℚ
  pe : ℚ
deriving DecidableEq

/-- Modelled from the spec: one step of the direct single-level rule on an
input `t`: the new prediction error is `t - y`, the previous error is the
stored one, and the rule text is applied verbatim. -/
def simpleStep (b : ℚ) (s : SimpleState) (t : ℚ) : ℚ × SimpleState :=
  let pe_t := t - s.y
  let gain := s.gain + b * pe_t * s.pe
  let y := s.y + gain * pe_t
  (y, { gain := gain, y := y, pe := pe_t })

/-- Modelled from the spec: trajectory of (returned prediction, gain) pairs
of the direct single-level rule. -/
def simpleTraj (b : ℚ) (s : SimpleState) : List ℚ → List (ℚ × ℚ)
  | [] => []
  | t :: ts =>
    let r := simpleStep b s t
    (r.1, r.2.gain) :: simpleTraj b r.2 ts

/-- Modelled from the spec: trajectory of (returned prediction, gain) pairs
of a predictor with a perpetually constant gain `g`:
`y := y + g * (t - y)` at every step. -/
def constGainTraj (g : ℚ) : ℚ → List ℚ → List (ℚ × ℚ)
  | _, [] => []
  | y, t :: ts =>
    let y2 := y + g * (t - y)
    (y2, g) :: constGainTraj g y2 ts

/-- State of `SimulatedEnvironment` in `sutton1981.py` (one field per
Python attribute): `noiseA` is `random_normal_list_1`, `noiseB` is
`random_normal_list_2`, `internal_count` the step cursor. -/
structure Env where
  z_t : ℚ
  y_t : ℚ
  sa : ℚ
  sb : ℚ
  a_t : ℚ
  b_t : ℚ
  max_steps : ℤ
  noiseA : List ℚ
  noiseB : List ℚ
  internal_count : ℕ
deriving DecidableEq

/-- Model of `SimulatedEnvironment.__init__(sa, sb, max_steps)`. The value `none` models the
numpy `ValueError` of `np.random.normal(loc=0.0, scale=s, size=n)` when the
size is negative or a scale is negative; otherwise both noise arrays are
drawn with length `max_steps` (the draws being the first `max_steps` values
of the supplied functions `fA`, `fB`). -/
def Env.init (sa sb : ℚ) (max_steps : ℤ) (fA fB : ℕ → ℚ) : Option Env :=
  if max_steps < 0 ∨ sa < 0 ∨ sb < 0 then none
  else
    some { z_t := 0
           y_t := 0
           sa := sa
           sb := sb
           a_t := 0
           b_t := 0
           max_steps := max_steps
           noiseA := (List.range max_steps.toNat).map fA
           noiseB := (List.range max_steps.toNat).map fB
           internal_count := 0 }

/-- Model of `SimulatedEnvironment.step()`: read both noise arrays at
`internal_count` (`none` models the `IndexError` when the cursor has
reached the array length — the read happens before any state mutation, so
a failing call leaves the state unchanged), then `y_t = z_t + b_t`,
`z_t += a_t`, advance the cursor and return `y_t`. -/
def Env.step (e : Env) : Option (ℚ × Env) :=
  if e.internal_count < e.noiseA.length ∧ e.internal_count < e.noiseB.length then
    let a_t := e.noiseA.getD e.internal_count 0
    let b_t := e.noiseB.getD e.internal_count 0
    let y := e.z_t + b_t
    some (y, { e with
      a_t := a_t
      b_t := b_t
      y_t := y
      z_t := e.z_t + a_t
      internal_count := e.internal_count + 1 })
  else none

/-- Model of `SimulatedEnvironment.change_variance(sb)`: redraw
`random_normal_list_2` with scale `newSb` and length `self.max_steps`
(the fresh draw being the first `max_steps` values of `f`). `none` models
the numpy `ValueError` on a negative scale. No other attribute is written;
in particular `self.sb` is not. -/
def Env.change_variance (e : Env) (newSb : ℚ) (f : ℕ → ℚ) : Option Env :=
  if newSb < 0 then none
  else some { e with noiseB := (List.range e.max_steps.toNat).map f }

/-- Iterate `step` `k` times, keeping only the final state (`none` as soon
as one call fails). -/
def Env.iter (e : Env) : ℕ → Option Env
  | 0 => some e
  | k + 1 => (e.step).bind fun p => p.2.iter k

/-! ### Basic lemmas about the gain-hierarchy sweep -/

lemma gainUpdateAt_length (p : ℚ) (g : List ℚ) (i : ℕ) :
    (gainUpdateAt p g i).length = g.length := by
  simp [gainUpdateAt]

lemma gainSweep_length (p : ℚ) : ∀ (i : ℕ) (g : List ℚ),
    (gainSweep p i g).length = g.length := by
  intro i
  induction i with
  | zero => intro g; simp [gainSweep, gainUpdateAt_length]
  | succ i ih => intro g; simp [gainSweep, ih, gainUpdateAt_length]

lemma gainUpdateAt_getD_ne (p : ℚ) (g : List ℚ) (i j : ℕ) (h : i ≠ j) :
    (gainUpdateAt p g i).getD j 0 = g.getD j 0 := by
  simp [gainUpdateAt, List.getD_eq_getElem?_getD, List.getElem?_set_ne h]

lemma gainSweep_getD_gt (p : ℚ) : ∀ (i : ℕ) (g : List ℚ) (j : ℕ), i < j →
    (gainSweep p i g).getD j 0 = g.getD j 0 := by
  intro i
  induction i with
  | zero =>
    intro g j hj
    exact gainUpdateAt_getD_ne p g 0 j (Nat.ne_of_lt hj)
  | succ i ih =>
    intro g j hj
    rw [gainSweep, ih _ j (Nat.lt_of_succ_lt hj)]
    exact gainUpdateAt_getD_ne p g (i + 1) j (Nat.ne_of_lt hj)

lemma getLast?_eq_getD (l : List ℚ) (h : l ≠ []) :
    l.getLast? = some (l.getD (l.length - 1) 0) := by
  rw [List.getLast?_eq_getElem?, List.getD_eq_getElem?_getD]
  have hlen : l.length - 1 < l.length :=
    Nat.sub_lt (List.length_pos.2 h) Nat.one_pos
  rw [List.getElem?_eq_getElem hlen]
  rfl

/-! ### One-step equations for `Agent.action` -/

/-- Evaluation of `action` on a depth-0 agent: no gain adaptation, only the error window
shift and the prediction update with the stored (initial) gain. -/
lemma Agent.action_depth0 (a : Agent) (t : ℚ) (h1 : a.gain_depth = 0) :
    a.action t = some (a.y_t + a.gain * (t - a.y_t),
      { gain := a.gain
        y_t := a.y_t + a.gain * (t - a.y_t)
        b := a.b
        pe_t := t - a.y_t
        pe_t_minus_1 := a.pe_t
        pe_product := a.pe_product
        gain_depth := 0
        gain_hierarchy_values := a.gain_hierarchy_values }) := by
  simp [Agent.action, h1]

/-- Evaluation of `action` on a depth-1 agent with hierarchy `[g0, x]`: the sweep is a
single update of index 0, the base slot is reset to `b`. -/
lemma Agent.action_depth1 (a : Agent) (g0 x t : ℚ)
    (h1 : a.gain_depth = 1) (hg : a.gain_hierarchy_values = [g0, x]) :
    a.action t = some (a.y_t + (g0 + a.b * ((t - a.y_t) * a.pe_t)) * (t - a.y_t),
      { gain := g0 + a.b * ((t - a.y_t) * a.pe_t)
        y_t := a.y_t + (g0 + a.b * ((t - a.y_t) * a.pe_t)) * (t - a.y_t)
        b := a.b
        pe_t := t - a.y_t
        pe_t_minus_1 := a.pe_t
        pe_product := (t - a.y_t) * a.pe_t
        gain_depth := 1
        gain_hierarchy_values := [g0 + a.b * ((t - a.y_t) * a.pe_t), a.b] }) := by
  simp [Agent.action, Agent.compute_gain, newHierarchy, h1, hg, gainSweep, gainUpdateAt]

/-! ### Depth-1 simulation of the direct single-level rule -/

lemma Agent.traj_depth1_sim (b : ℚ) : ∀ (ts : List ℚ) (a : Agent) (g0 x : ℚ),
    a.gain_depth = 1 → a.b = b → a.gain_hierarchy_values = [g0, x] →
    a.traj ts = some (simpleTraj b ⟨g0, a.y_t, a.pe_t⟩ ts) := by
  intro ts
  induction ts with
  | nil => intro a g0 x _ _ _; simp [Agent.traj, simpleTraj]
  | cons t ts ih =>
    intro a g0 x h1 hb hg
    simp only [Agent.traj, Agent.action_depth1 a g0 x t h1 hg, Option.some_bind]
    rw [ih { gain := g0 + a.b * ((t - a.y_t) * a.pe_t)
             y_t := a.y_t + (g0 + a.b * ((t - a.y_t) * a.pe_t)) * (t - a.y_t)
             b := a.b
             pe_t := t - a.y_t
             pe_t_minus_1 := a.pe_t
             pe_product := (t - a.y_t) * a.pe_t
             gain_depth := 1
             gain_hierarchy_values := [g0 + a.b * ((t - a.y_t) * a.pe_t), a.b] }
          (g0 + a.b * ((t - a.y_t) * a.pe_t)) a.b rfl hb rfl]
    simp [simpleTraj, simpleStep, hb, mul_assoc]

/-! ### Depth-0 runs -/

lemma Agent.traj_depth0 : ∀ (ts : List ℚ) (a : Agent), a.gain_depth = 0 →
    a.traj ts = some (constGainTraj a.gain a.y_t ts) := by
  intro ts
  induction ts with
  | nil => intro a _; simp [Agent.traj, constGainTraj]
  | cons t ts ih =>
    intro a h1
    simp only [Agent.traj, Agent.action_depth0 a t h1, Option.some_bind]
    rw [ih _ rfl]
    simp [constGainTraj]

lemma Agent.run_depth0 : ∀ (ts : List ℚ) (a : Agent), a.gain_depth = 0 →
    ∃ a', a.run ts = some a' ∧ a'.gain = a.gain ∧ a'.gain_depth = 0 := by
  intro ts
  induction ts with
  | nil => intro a h1; exact ⟨a, rfl, rfl, h1⟩
  | cons t ts ih =>
    intro a h1
    simp only [Agent.run, Agent.action_depth0 a t h1, Option.some_bind]
    exact ih _ rfl

/-! ### The stored gain is dead when the hierarchy is adapted -/

lemma Agent.action_gain_irrel (a : Agent) (g t : ℚ) (h : a.gain_depth ≠ 0) :
    Agent.action { a with gain := g } t = a.action t := by
  simp [Agent.action, Agent.compute_gain, newHierarchy, h]

lemma Agent.traj_gain_irrel (a : Agent) (g : ℚ) (ts : List ℚ) (h : a.gain_depth ≠ 0) :
    Agent.traj { a with gain := g } ts = a.traj ts := by
  cases ts with
  | nil => rfl
  | cons t ts => rw [Agent.traj, Agent.traj, Agent.action_gain_irrel a g t h]

/-! ### General-depth invariants -/

lemma newHierarchy_length (a : Agent) :
    (newHierarchy a).length = a.gain_hierarchy_values.length := by
  unfold newHierarchy
  split
  · rw [gainSweep_length, List.length_set]
  · rw [List.length_set]

lemma newHierarchy_getD_last (a : Agent) (d : ℕ) (h1 : a.gain_depth = (d : ℤ) + 1)
    (hl : a.gain_hierarchy_values.length = d + 2) :
    (newHierarchy a).getD (d + 1) 0 = a.b := by
  unfold newHierarchy
  rw [if_pos (by omega : (1 : ℤ) ≤ a.gain_depth)]
  have ht : (a.gain_depth - 1).toNat = d := by omega
  rw [ht, gainSweep_getD_gt _ d _ (d + 1) (Nat.lt_succ_self d), hl]
  have hidx : d + 2 - 1 = d + 1 := rfl
  rw [hidx, List.getD_eq_getElem?_getD,
    List.getElem?_set_eq (by rw [hl]; omega : d + 1 < a.gain_hierarchy_values.length)]
  rfl

/-- Evaluation of `action` on an agent with nonzero depth: the hierarchy is rewritten by
`compute_gain` on the shifted state and the new level-0 value is the gain
used for the prediction update. -/
lemma Agent.action_adapt (a : Agent) (t : ℚ) (h : a.gain_depth ≠ 0)
    (hne : a.gain_hierarchy_values ≠ []) :
    a.action t = some
      (a.y_t + (newHierarchy { a with pe_t_minus_1 := a.pe_t, pe_t := t - a.y_t }).getD 0 0
          * (t - a.y_t),
      { gain := (newHierarchy { a with pe_t_minus_1 := a.pe_t, pe_t := t - a.y_t }).getD 0 0
        y_t := a.y_t + (newHierarchy { a with pe_t_minus_1 := a.pe_t, pe_t := t - a.y_t }).getD 0 0
          * (t - a.y_t)
        b := a.b
        pe_t := t - a.y_t
        pe_t_minus_1 := a.pe_t
        pe_product := (t - a.y_t) * a.pe_t
        gain_depth := a.gain_depth
        gain_hierarchy_values := newHierarchy { a with pe_t_minus_1 := a.pe_t, pe_t := t - a.y_t } }) := by
  simp [Agent.action, Agent.compute_gain, h, hne]

lemma Agent.action_WF (a : Agent) (d : ℕ) (b t : ℚ)
    (h1 : a.gain_depth = (d : ℤ)) (hb : a.b = b)
    (hl : a.gain_hierarchy_values.length = d + 1) :
    ∃ r a', a.action t = some (r, a') ∧
      a'.gain_depth = (d : ℤ) ∧ a'.b = b ∧
      a'.gain_hierarchy_values.length = d + 1 ∧
      (1 ≤ d → a'.gain_hierarchy_values.getLast? = some b) := by
  cases d with
  | zero =>
    rw [Agent.action_depth0 a t (by exact_mod_cast h1)]
    exact ⟨_, _, rfl, by simpa using h1.symm ▸ rfl, hb, hl, by omega⟩
  | succ k =>
    have hne : a.gain_hierarchy_values ≠ [] := by
      intro hnil; rw [hnil] at hl; simp at hl
    have hz : a.gain_depth ≠ 0 := by omega
    rw [Agent.action_adapt a t hz hne]
    refine ⟨_, _, rfl, h1, hb, ?_, ?_⟩
    · rw [newHierarchy_length]; exact hl
    · intro _
      have hlen : (newHierarchy { a with pe_t_minus_1 := a.pe_t, pe_t := t - a.y_t }).length
          = k + 2 := by rw [newHierarchy_length]; exact hl
      have hlast : (newHierarchy { a with pe_t_minus_1 := a.pe_t, pe_t := t - a.y_t }).getD
          (k + 1) 0 = b := by
        rw [newHierarchy_getD_last _ k (by push_cast; omega) (by simpa using hl)]
        exact hb
      show (newHierarchy { a with pe_t_minus_1 := a.pe_t, pe_t := t - a.y_t }).getLast? = some b
      rw [getLast?_eq_getD _ (by intro hnil; rw [hnil] at hlen; simp at hlen), hlen]
      rw [show k + 2 - 1 = k + 1 from rfl, hlast]

lemma Agent.run_WF (d : ℕ) (b : ℚ) : ∀ (ts : List ℚ) (a : Agent),
    a.gain_depth = (d : ℤ) → a.b = b → a.gain_hierarchy_values.length = d + 1 →
    ∃ a', a.run ts = some a' ∧ a'.gain_depth = (d : ℤ) ∧ a'.b = b ∧
      a'.gain_hierarchy_values.length = d + 1 ∧
      (ts ≠ [] → 1 ≤ d → a'.gain_hierarchy_values.getLast? = some b) := by
  intro ts
  induction ts with
  | nil =>
    intro a h1 hb hl
    exact ⟨a, rfl, h1, hb, hl, by intro h; exact absurd rfl h⟩
  | cons t ts ih =>
    intro a h1 hb hl
    obtain ⟨r, a1, hact, ha1, hb1, hl1, hlast1⟩ := Agent.action_WF a d b t h1 hb hl
    rw [Agent.run, hact, Option.some_bind]
    obtain ⟨a2, hrun, ha2, hb2, hl2, hlast2⟩ := ih a1 ha1 hb1 hl1
    refine ⟨a2, hrun, ha2, hb2, hl2, fun _ hd => ?_⟩
    cases ts with
    | nil =>
      have : a2 = a1 := by
        rw [Agent.run] at hrun
        exact Option.some_injective _ hrun.symm
      rw [this]
      exact hlast1 hd
    | cons u us => exact hlast2 (by simp) hd

/-! ### Environment lemmas -/

lemma Env.step_WF (e : Env) (N : ℕ) (hA : e.noiseA.length = N) (hB : e.noiseB.length = N)
    (hc : e.internal_count < N) :
    ∃ r e', e.step = some (r, e') ∧ e'.noiseA.length = N ∧ e'.noiseB.length = N ∧
      e'.internal_count = e.internal_count + 1 := by
  have h : e.internal_count < e.noiseA.length ∧ e.internal_count < e.noiseB.length := by
    omega
  simp only [Env.step]
  rw [if_pos h]
  exact ⟨_, _, rfl, hA, hB, rfl⟩

lemma Env.step_none (e : Env)
    (h : ¬(e.internal_count < e.noiseA.length ∧ e.internal_count < e.noiseB.length)) :
    e.step = none := by
  simp only [Env.step]
  rw [if_neg h]

lemma Env.iter_WF (N : ℕ) : ∀ (k : ℕ) (e : Env), e.noiseA.length = N → e.noiseB.length = N →
    e.internal_count + k ≤ N →
    ∃ e', e.iter k = some e' ∧ e'.noiseA.length = N ∧ e'.noiseB.length = N ∧
      e'.internal_count = e.internal_count + k := by
  intro k
  induction k with
  | zero => intro e hA hB _; exact ⟨e, rfl, hA, hB, rfl⟩
  | succ k ih =>
    intro e hA hB hk
    obtain ⟨r, e1, hstep, hA1, hB1, hc1⟩ := Env.step_WF e N hA hB (by omega)
    rw [Env.iter, hstep, Option.some_bind]
    obtain ⟨e2, hiter, hA2, hB2, hc2⟩ := ih e1 hA1 hB1 (by omega)
    exact ⟨e2, hiter, hA2, hB2, by omega⟩

lemma Env.init_some (sa sb : ℚ) (N : ℕ) (fA fB : ℕ → ℚ) (hsa : 0 ≤ sa) (hsb : 0 ≤ sb) :
    Env.init sa sb (N : ℤ) fA fB = some
      { z_t := 0
        y_t := 0
        sa := sa
        sb := sb
        a_t := 0
        b_t := 0
        max_steps := (N : ℤ)
        noiseA := (List.range N).map fA
        noiseB := (List.range N).map fB
        internal_count := 0 } := by
  rw [Env.init, if_neg (by push_neg; exact ⟨Int.natCast_nonneg N, hsa, hsb⟩)]
  simp

lemma Env.change_variance_some (e : Env) (newSb : ℚ) (f : ℕ → ℚ) (h : 0 ≤ newSb) :
    e.change_variance newSb f =
      some { e with noiseB := (List.range e.max_steps.toNat).map f } := by
  rw [Env.change_variance, if_neg (not_lt.2 h)]

/-! ### Claim theorems -/

/-- C1: for every agent constructed with depth 1 and base rate `b` and every
finite input sequence, the sequence of `action` return values and the
sequence of effective gains after each call coincide with those of the
direct single-level rule `gain += b * pe_t * pe_t_minus_1; y_t += gain * pe_t`
run on the same inputs, both starting from effective gain 0 and `y_t = 0`. -/
theorem claim_C1_depth1_equivalence (initial_gain b : ℚ) (ts : List ℚ) :
    (Agent.init initial_gain b 1).traj ts = some (simpleTraj b ⟨0, 0, 0⟩ ts) :=
  Agent.traj_depth1_sim b ts (Agent.init initial_gain b 1) 0 0 rfl rfl rfl

/-- C2: for every depth `d ≥ 0` and after any number of `action` calls the
gain-hierarchy list has exactly `d + 1` elements, and for `d ≥ 1` its last
element equals `b` immediately after any `action` call. -/
theorem claim_C2_hierarchy_invariant (initial_gain b : ℚ) (d : ℕ) (ts : List ℚ) :
    ∃ a', (Agent.init initial_gain b (d : ℤ)).run ts = some a' ∧
      a'.gain_hierarchy_values.length = d + 1 ∧
      (1 ≤ d → ts ≠ [] → a'.gain_hierarchy_values.getLast? = some b) := by
  have hinit : (Agent.init initial_gain b (d : ℤ)).gain_hierarchy_values.length = d + 1 := by
    simp [Agent.init]
  obtain ⟨a', hrun, _h1, _h2, hl, hlast⟩ :=
    Agent.run_WF d b ts (Agent.init initial_gain b (d : ℤ)) rfl rfl hinit
  exact ⟨a', hrun, hl, fun hd hts => hlast hts hd⟩

theorem claim_C2_hierarchy_invariant_witness :
    ∃ a', (Agent.init 0 2 ((1 : ℕ) : ℤ)).run [5] = some a' ∧
      a'.gain_hierarchy_values.length = 1 + 1 ∧
      a'.gain_hierarchy_values.getLast? = some 2 := by
  obtain ⟨a', h1, h2, h3⟩ := claim_C2_hierarchy_invariant 0 2 1 [5]
  exact ⟨a', h1, h2, h3 (by omega) (by simp)⟩

/-- C3: a depth-1 agent with `b = 1/10` and arbitrary initial gain, fed
`[2, -1, 3]`, returns 0 (gain 0), then 1/5 (gain -1/5), then -143/125
(gain -12/25): that is, 0.2 with gain -0.2, and -1.144 with gain -0.48. -/
theorem claim_C3_concrete_scenario (initial_gain : ℚ) :
    (Agent.init initial_gain (1/10) 1).traj [2, -1, 3] =
      some [(0, 0), (1/5, -1/5), (-143/125, -12/25)] := by
  rw [Agent.traj_depth1_sim (1/10) [2, -1, 3] (Agent.init initial_gain (1/10) 1) 0 0
    rfl rfl rfl]
  norm_num [simpleTraj, simpleStep, Agent.init]

/-- C4: a depth-0 agent uses the constant effective gain `initial_gain` at
every step (`y_t := y_t + initial_gain * pe_t`), and the gain is unchanged
by every `action` call. -/
theorem claim_C4_depth0_constant_gain (initial_gain b : ℚ) (ts : List ℚ) :
    (Agent.init initial_gain b 0).traj ts = some (constGainTraj initial_gain 0 ts) ∧
    ∃ a', (Agent.init initial_gain b 0).run ts = some a' ∧ a'.gain = initial_gain := by
  constructor
  · exact Agent.traj_depth0 ts (Agent.init initial_gain b 0) rfl
  · obtain ⟨a', h1, h2, _⟩ := Agent.run_depth0 ts (Agent.init initial_gain b 0) rfl
    exact ⟨a', h1, h2⟩

/-- C5: for depth `d ≥ 1`, two agents differing only in `initial_gain`
produce identical sequences of `action` returns and effective gains on
every input sequence: `initial_gain` is observably dead. -/
theorem claim_C5_initial_gain_unobservable (ig1 ig2 b : ℚ) (d : ℤ) (ts : List ℚ)
    (hd : 1 ≤ d) :
    (Agent.init ig1 b d).traj ts = (Agent.init ig2 b d).traj ts := by
  have h : Agent.init ig1 b d = { Agent.init ig2 b d with gain := ig1 } := rfl
  rw [h, Agent.traj_gain_irrel (Agent.init ig2 b d) ig1 ts
    (by show d ≠ 0; omega)]

theorem claim_C5_initial_gain_unobservable_witness :
    (Agent.init 5 2 1).traj [1, 2] = (Agent.init (-3) 2 1).traj [1, 2] :=
  claim_C5_initial_gain_unobservable 5 (-3) 2 1 [1, 2] (by omega)

/-- C6 counterexample: for the depth-0 agent with `initial_gain = 1`, the
first `action` call on input 1 uses gain 1 (returning `y_t = 1`) while the
level-0 element of the gain hierarchy is 0, so the gain used in the
prediction update differs from `gainHierarchy[0]`. -/
theorem claim_C6_counterexample :
    (((Agent.init 1 0 0).action 1).map
      fun r => (r.1, r.2.gain, r.2.gain_hierarchy_values.getD 0 0)) = some (1, 1, 0) ∧
    (1 : ℚ) ≠ 0 := by
  constructor
  · rw [Agent.action_depth0 (Agent.init 1 0 0) 1 rfl]
    norm_num [Agent.init]
  · norm_num

/-- C6 amended: for every agent state with depth ≥ 1 (as holds for every
agent constructed with depth ≥ 1) and nonempty hierarchy, every `action`
call succeeds, the gain used in the prediction update equals the level-0
element of the (updated) gain hierarchy, and the returned value is
`y_t + gain * pe_t`. At depth 0 the claim fails (see the counterexample):
the gain used is `initial_gain`, not `gainHierarchy[0]`. -/
theorem claim_C6_amended_level0_gain (a : Agent) (t : ℚ)
    (h1 : 1 ≤ a.gain_depth) (h2 : a.gain_hierarchy_values ≠ []) :
    ∃ r a', a.action t = some (r, a') ∧
      a'.gain = a'.gain_hierarchy_values.getD 0 0 ∧
      r = a.y_t + a'.gain * a'.pe_t := by
  rw [Agent.action_adapt a t (by omega) h2]
  exact ⟨_, _, rfl, rfl, rfl⟩

theorem claim_C6_amended_level0_gain_witness :
    ∃ r a', (Agent.init 0 1 1).action 2 = some (r, a') ∧
      a'.gain = a'.gain_hierarchy_values.getD 0 0 ∧
      r = (Agent.init 0 1 1).y_t + a'.gain * a'.pe_t :=
  claim_C6_amended_level0_gain (Agent.init 0 1 1) 2
    (by show (1 : ℤ) ≤ 1; omega) (by show ([0, 0] : List ℚ) ≠ []; simp)

/-- C7 counterexample: constructing an agent with depth `-1` succeeds and
produces an (empty-hierarchy) agent object instead of failing, and
constructing an environment with `maxSteps = 0` succeeds instead of
failing: neither configuration is rejected at construction. -/
theorem claim_C7_counterexample :
    (Agent.init 0 0 (-1)).gain_hierarchy_values = [] ∧
    (Env.init 1 1 0 (fun _ => 0) (fun _ => 0)).isSome = true := by
  constructor
  · rfl
  · norm_num [Env.init]

/-- C7 amended: construction performs no validation. An agent built with
negative depth is produced (with an empty gain hierarchy, so that every
subsequent `action` call fails), and environment construction (with
non-negative scales) fails only for negative `maxSteps` (numpy rejects a
negative array size); `maxSteps = 0` constructs successfully. -/
theorem claim_C7_amended_no_validation :
    (∀ (initial_gain b : ℚ) (d : ℤ), d < 0 →
      (Agent.init initial_gain b d).gain_hierarchy_values = [] ∧
      ∀ t, (Agent.init initial_gain b d).action t = none) ∧
    (∀ (sa sb : ℚ) (ms : ℤ) (fA fB : ℕ → ℚ), 0 ≤ sa → 0 ≤ sb →
      ((Env.init sa sb ms fA fB).isSome ↔ 0 ≤ ms)) := by
  constructor
  · intro ig b d hd
    have hnil : (Agent.init ig b d).gain_hierarchy_values = [] := by
      simp [Agent.init]
      omega
    refine ⟨hnil, fun t => ?_⟩
    have hz : (Agent.init ig b d).gain_depth ≠ 0 := by
      show d ≠ 0
      omega
    simp [Agent.action, Agent.compute_gain, hz, hnil]
  · intro sa sb ms fA fB hsa hsb
    rw [Env.init]
    by_cases hms : ms < 0
    · rw [if_pos (Or.inl hms)]
      simp
      omega
    · rw [if_neg (by push_neg; exact ⟨not_lt.1 hms, hsa, hsb⟩)]
      simp
      omega

theorem claim_C7_amended_no_validation_witness :
    (Agent.init 0 0 (-1)).action 3 = none ∧
    ((Env.init 1 1 (-2) (fun _ => 0) (fun _ => 0)).isSome ↔ 0 ≤ (-2 : ℤ)) :=
  ⟨(claim_C7_amended_no_validation.1 0 0 (-1) (by omega)).2 3,
   claim_C7_amended_no_validation.2 1 1 (-2) (fun _ => 0) (fun _ => 0)
     (by norm_num) (by norm_num)⟩

/-- C8: for an environment built with `maxSteps = N > 0`, the first `N`
`step` calls all succeed and the `(N+1)`-th call fails (no state for it
exists: iterating `N` steps succeeds and one more `step` returns `none`). -/
theorem claim_C8_step_bounded (sa sb : ℚ) (N : ℕ) (fA fB : ℕ → ℚ)
    (hsa : 0 ≤ sa) (hsb : 0 ≤ sb) (hN : 0 < N) :
    ∃ e, Env.init sa sb (N : ℤ) fA fB = some e ∧
      (∀ k, k < N → ∃ e', e.iter k = some e' ∧ e'.step.isSome = true) ∧
      (∃ e', e.iter N = some e' ∧ e'.step = none) := by
  refine ⟨{ z_t := 0
            y_t := 0
            sa := sa
            sb := sb
            a_t := 0
            b_t := 0
            max_steps := (N : ℤ)
            noiseA := (List.range N).map fA
            noiseB := (List.range N).map fB
            internal_count := 0 },
          Env.init_some sa sb N fA fB hsa hsb, ?_, ?_⟩
  · intro k hk
    obtain ⟨e', hiter, hA, hB, hc⟩ := Env.iter_WF N k
      { z_t := 0
        y_t := 0
        sa := sa
        sb := sb
        a_t := 0
        b_t := 0
        max_steps := (N : ℤ)
        noiseA := (List.range N).map fA
        noiseB := (List.range N).map fB
        internal_count := 0 }
      (by simp) (by simp) (by simp; omega)
    refine ⟨e', hiter, ?_⟩
    obtain ⟨r, e'', hstep, _, _, _⟩ := Env.step_WF e' N hA hB (by simp at hc; omega)
    rw [hstep]
    rfl
  · obtain ⟨e', hiter, hA, hB, hc⟩ := Env.iter_WF N N
      { z_t := 0
        y_t := 0
        sa := sa
        sb := sb
        a_t := 0
        b_t := 0
        max_steps := (N : ℤ)
        noiseA := (List.range N).map fA
        noiseB := (List.range N).map fB
        internal_count := 0 }
      (by simp) (by simp) (by simp)
    refine ⟨e', hiter, Env.step_none e' ?_⟩
    simp at hc
    omega

theorem claim_C8_step_bounded_witness :
    ∃ e, Env.init 0 0 ((1 : ℕ) : ℤ) (fun _ => 0) (fun _ => 0) = some e ∧
      (∀ k, k < 1 → ∃ e', e.iter k = some e' ∧ e'.step.isSome = true) ∧
      (∃ e', e.iter 1 = some e' ∧ e'.step = none) :=
  claim_C8_step_bounded 0 0 1 (fun _ => 0) (fun _ => 0) le_rfl le_rfl Nat.one_pos

/-- C9: `change_variance(newSb)` (for a valid scale `newSb ≥ 0`) replaces
the whole `noiseB` array by a fresh draw of length `max_steps` and leaves
`noiseA`, `sa`, `z_t`, the step cursor, `y_t` and `max_steps` unchanged;
values already returned by past `step` calls are unaffected. -/
theorem claim_C9_change_variance_frame (e : Env) (newSb : ℚ) (f : ℕ → ℚ)
    (h : 0 ≤ newSb) :
    ∃ e', e.change_variance newSb f = some e' ∧
      e'.noiseB = (List.range e.max_steps.toNat).map f ∧
      e'.noiseB.length = e.max_steps.toNat ∧
      e'.noiseA = e.noiseA ∧ e'.sa = e.sa ∧ e'.z_t = e.z_t ∧
      e'.internal_count = e.internal_count ∧ e'.y_t = e.y_t ∧
      e'.max_steps = e.max_steps := by
  exact ⟨_, Env.change_variance_some e newSb f h, rfl, by simp, rfl, rfl, rfl, rfl, rfl, rfl⟩

theorem claim_C9_change_variance_frame_witness :
    ∃ e', (Env.mk 0 0 1 1 0 0 2 [1, 2] [3, 4] 0).change_variance 0 (fun _ => 7) = some e' ∧
      e'.noiseA = [1, 2] ∧ e'.internal_count = 0 := by
  obtain ⟨e', h1, _, _, h4, _, _, h7, _, _⟩ :=
    claim_C9_change_variance_frame (Env.mk 0 0 1 1 0 0 2 [1, 2] [3, 4] 0) 0
      (fun _ => 7) le_rfl
  exact ⟨e', h1, h4, h7⟩

/-- C10: the stored `sb` attribute always keeps the value supplied at
construction: `change_variance` never writes it (whatever `newSb` and the
prior state), `step` never writes it, and construction stores the given
`sb`. -/
theorem claim_C10_sb_never_written :
    (∀ (e : Env) (newSb : ℚ) (f : ℕ → ℚ) (e' : Env),
      e.change_variance newSb f = some e' → e'.sb = e.sb) ∧
    (∀ (r : ℚ) (e e' : Env), e.step = some (r, e') → e'.sb = e.sb) ∧
    (∀ (sa sb : ℚ) (ms : ℤ) (fA fB : ℕ → ℚ) (e : Env),
      Env.init sa sb ms fA fB = some e → e.sb = sb) := by
  refine ⟨?_, ?_, ?_⟩
  · intro e newSb f e' h
    rw [Env.change_variance] at h
    by_cases hn : newSb < 0
    · rw [if_pos hn] at h
      simp at h
    · rw [if_neg hn] at h
      rw [← Option.some_injective _ h]
  · intro r e e' h
    by_cases hc : e.internal_count < e.noiseA.length ∧ e.internal_count < e.noiseB.length
    · simp only [Env.step] at h
      rw [if_pos hc] at h
      have h2 := Option.some_injective _ h
      injection h2 with h21 h22
      rw [← h22]
    · rw [Env.step_none e hc] at h
      simp at h
  · intro sa sb ms fA fB e h
    rw [Env.init] at h
    by_cases hn : ms < 0 ∨ sa < 0 ∨ sb < 0
    · rw [if_pos hn] at h
      simp at h
    · rw [if_neg hn] at h
      rw [← Option.some_injective _ h]

theorem claim_C10_sb_never_written_witness :
    ∃ e', (Env.mk 0 0 1 1 0 0 2 [1, 2] [3, 4] 0).change_variance 0 (fun _ => 7) = some e' ∧
      e'.sb = 1 := by
  have h := Env.change_variance_some (Env.mk 0 0 1 1 0 0 2 [1, 2] [3, 4] 0) 0
    (fun _ => 7) le_rfl
  exact ⟨_, h, claim_C10_sb_never_written.1 _ 0 (fun _ => 7) _ h⟩
